import Mathlib

/-!
Verification development for the terminal music player in `src/main.rs`
(repository naaklaam/punini).  The definitions below are a shallow
embedding of the program's core: the LRC lyric parser (`parse_lrc`), the
lyric synchronizer (the `rposition` scan in `run_app`), the file-browser
cursor moves (the Up/Down key handlers in `run_app`), the library scanner
(the directory scan in `main`) and the track loader
(`AppState::load_track`).

Modelling conventions, stated once:
* `std::time::Duration` values are modelled as natural numbers of
  milliseconds; every duration `parse_lrc` constructs is a whole number of
  milliseconds, and `Duration`'s order agrees with the numeric order.
* Rust strings are `List Char`.  The regex class `\d` of the source is
  modelled as the ASCII digits (the claims only exercise ASCII digits);
  `char::is_whitespace` is the Unicode White_Space set, reproduced below.
* `usize` arithmetic wraps modulo `2 ^ 64` (release-build semantics; a
  debug build panics on the same underflow, which the relevant theorem
  notes where it matters).
* Rust's `slice::sort`/`sort_by_key` is a stable sort; it is modelled by
  the stable insertion sort `sortByLe`.
-/

/-- Unicode White_Space, the character class `str::trim` and
`char::is_whitespace` use. -/
def isRustWs (c : Char) : Bool :=
  let n := c.toNat
  (9 ≤ n && n ≤ 13) || n = 32 || n = 133 || n = 160 || n = 5760 ||
  (8192 ≤ n && n ≤ 8202) || n = 8232 || n = 8233 || n = 8239 || n = 8287 ||
  n = 12288

/-- `str::trim`: drop whitespace from both ends. -/
def trimChars (l : List Char) : List Char :=
  ((l.dropWhile isRustWs).reverse.dropWhile isRustWs).reverse

/-- Close the current (reversed) accumulator of `linesAux` at a newline:
the piece before the `\n`, with one trailing `\r` removed (the `\r\n`
ending of `str::lines`). -/
def closePiece (cur : List Char) : List Char :=
  match cur with
  | '\r' :: c2 => c2.reverse
  | _ => cur.reverse

/-- Worker for `rustLines`; `cur` is the current piece, reversed. -/
def linesAux : List Char → List Char → List (List Char)
  | cur, [] => if cur.isEmpty then [] else [cur.reverse]
  | cur, '\n' :: rest => closePiece cur :: linesAux [] rest
  | cur, c :: rest => linesAux (c :: cur) rest

/-- `str::lines`: split at `\n`, each line stripped of the `\n` and of a
`\r` directly before it; a final piece without a line ending is kept as
is, and an empty final piece is not a line. -/
def rustLines (s : List Char) : List (List Char) := linesAux [] s

/-- ASCII digit test (the `\d` of the source's regex, at the ASCII
subset the program's data exercises). -/
def isDig (c : Char) : Bool := ('0' ≤ c) && (c ≤ '9')

def digVal (c : Char) : Nat := c.toNat - 48

/-- Decimal value of a run of digits (`str::parse::<u64>` on the capture,
which on the 2–3 ASCII digits the regex can capture always succeeds). -/
def digitsVal (ds : List Char) : Nat := ds.foldl (fun a c => 10 * a + digVal c) 0

/-- A timed lyric line (`struct LyricLine`); `time` in milliseconds. -/
structure LyricLine where
  time : Nat
  text : List Char
deriving DecidableEq, Repr

/-- The part of the regex after `[MM:SS`: the optional fraction
`(?:\.(\d{2,3}))?` followed by `]`.  Greedy, as the regex crate matches:
three fraction digits are preferred to two, and the fraction group is
preferred to skipping it (the cases are structurally exclusive on the
first character).  Returns the captured fraction digits, if any, and the
text after the `]`. -/
def matchFrac (cs : List Char) : Option (Option (List Char) × List Char) :=
  match cs with
  | '.' :: tail =>
    match tail with
    | e1 :: e2 :: e3 :: ']' :: r =>
      if isDig e1 && isDig e2 && isDig e3 then some (some [e1, e2, e3], r)
      else
        match tail with
        | f1 :: f2 :: ']' :: r2 =>
          if isDig f1 && isDig f2 then some (some [f1, f2], r2) else none
        | _ => none
    | e1 :: e2 :: ']' :: r =>
      if isDig e1 && isDig e2 then some (some [e1, e2], r) else none
    | _ => none
  | ']' :: r => some (none, r)
  | _ => none

/-- Match `\[(\d{2}):(\d{2})(?:\.(\d{2,3}))?\](.*)` at the start of
`cs`: minutes, seconds, optional fraction digits, and the `(.*)`
capture. -/
def matchStampAt (cs : List Char) :
    Option (Nat × Nat × Option (List Char) × List Char) :=
  match cs with
  | '[' :: d1 :: d2 :: ':' :: d3 :: d4 :: rest =>
    if isDig d1 && isDig d2 && isDig d3 && isDig d4 then
      match matchFrac rest with
      | some (fr, r) =>
        some (10 * digVal d1 + digVal d2, 10 * digVal d3 + digVal d4, fr, r)
      | none => none
    else none
  | _ => none

/-- Leftmost match of the timestamp regex in a line (`Regex::captures`
scans the positions left to right). -/
def findStamp : List Char → Option (Nat × Nat × Option (List Char) × List Char)
  | [] => none
  | c :: cs =>
    match matchStampAt (c :: cs) with
    | some r => some r
    | none => findStamp cs

/-- The source's normalization of the captured fraction to milliseconds:
1 digit → tenths (x100), 2 digits → hundredths (x10), otherwise taken as
milliseconds.  (The regex only ever captures 2 or 3 digits, so the
1-digit arm is unreachable from `parse_lrc`.) -/
def fracToMillis : Option (List Char) → Nat
  | none => 0
  | some ds =>
    match ds.length with
    | 1 => digitsVal ds * 100
    | 2 => digitsVal ds * 10
    | _ => digitsVal ds

/-- One iteration of `parse_lrc`'s loop: trim the line, skip it when it
is empty or the regex does not match, otherwise produce the timed line
with the text after the bracket, trimmed. -/
def parseLine (l : List Char) : List LyricLine :=
  let t := trimChars l
  if t.isEmpty then []
  else
    match findStamp t with
    | none => []
    | some (mn, sc, fr, rest) =>
      [{ time := (mn * 60 + sc) * 1000 + fracToMillis fr,
         text := trimChars rest }]

/-- Stable insertion: `x` goes before the first element it satisfies
`le` with.  Models one placement of Rust's stable `slice::sort`. -/
def insertByLe (le : α → α → Bool) (x : α) : List α → List α
  | [] => [x]
  | y :: ys => if le x y then x :: y :: ys else y :: insertByLe le x ys

/-- Stable insertion sort, the model of `sort`/`sort_by_key` (both are
stable sorts in Rust). -/
def sortByLe (le : α → α → Bool) : List α → List α
  | [] => []
  | x :: xs => insertByLe le x (sortByLe le xs)

/-- The `sort_by_key(|k| k.time)` order. -/
def leTime (a b : LyricLine) : Bool := decide (a.time ≤ b.time)

/-- The lines of `parse_lrc` before the final sort, in input order. -/
def rawParse (content : List Char) : List LyricLine :=
  (rustLines content).foldr (fun l acc => parseLine l ++ acc) []

/-- `fn parse_lrc`: per-line regex parse, then a stable sort by time. -/
def parse_lrc (content : List Char) : List LyricLine :=
  sortByLe leTime (rawParse content)

/-- `Iterator::rposition`: the greatest index whose element satisfies the
predicate. -/
def rposition (p : α → Bool) : List α → Option Nat
  | [] => none
  | x :: xs =>
    match rposition p xs with
    | some i => some (i + 1)
    | none => if p x then some 0 else none

/-- The synchronizer of `run_app`:
`lyrics.iter().rposition(|line| line.time <= current_pos)`. -/
def active_line (lyrics : List LyricLine) (pos : Nat) : Option Nat :=
  rposition (fun line => decide (line.time ≤ pos)) lyrics

/-- `2 ^ 64`, the modulus of `usize` arithmetic. -/
def USIZE : Nat := 18446744073709551616

/-- `n - 1` as `usize` computes it in a release build: wrapping modulo
`2 ^ 64` (a debug build panics on the underflow at `n = 0`). -/
def usizeSub1 (n : Nat) : Nat := (n + (USIZE - 1)) % USIZE

/-- The Up/`k` key handler of `run_app` over a library of length `n`:
`Some(i) => if i == 0 { n - 1 } else { i - 1 }, None => 0`, and the
result is always selected. -/
def moveUp (n : Nat) (sel : Option Nat) : Option Nat :=
  match sel with
  | some i => some (if i = 0 then usizeSub1 n else i - 1)
  | none => some 0

/-- The Down/`j` key handler of `run_app`:
`Some(i) => if i >= n - 1 { 0 } else { i + 1 }, None => 0`. -/
def moveDown (n : Nat) (sel : Option Nat) : Option Nat :=
  match sel with
  | some i => some (if usizeSub1 n ≤ i then 0 else i + 1)
  | none => some 0

/-- Byte-lexicographic order on paths (UTF-8 byte order agrees with code
point order), the order `Vec<PathBuf>::sort` uses on the scanned paths,
which all lie directly in the one scanned directory. -/
def lexLe : List Char → List Char → Bool
  | [], _ => true
  | _ :: _, [] => false
  | a :: as, b :: bs =>
    if a.toNat < b.toNat then true
    else if b.toNat < a.toNat then false
    else lexLe as bs

/-- One directory entry as the scan loop sees it: the `is_file()` answer
and the entry's path. -/
structure DirEntry where
  isFile : Bool
  path : List Char
deriving DecidableEq, Repr

/-- ASCII lowercasing (`str::to_lowercase`; no non-ASCII character
lowercases to a string equal to one of the supported extensions). -/
def toLowerChar (c : Char) : Char :=
  if 'A' ≤ c && c ≤ 'Z' then Char.ofNat (c.toNat + 32) else c

/-- The supported audio extensions of `main`. -/
def supportedExts : List (List Char) :=
  ["flac".toList, "mp3".toList, "wav".toList, "ogg".toList, "m4a".toList]

/-- `Path::extension` on a path whose file name is the part after the
last `/`: the portion of the file name after its last `.`; none when the
name has no `.`, or its only `.` is its leading character. -/
def extensionOf (p : List Char) : Option (List Char) :=
  let name := (p.reverse.takeWhile (fun c => c ≠ '/')).reverse
  let revName := name.reverse
  let revExt := revName.takeWhile (fun c => c ≠ '.')
  match revName.drop revExt.length with
  | [] => none
  | _ :: [] => none
  | _ :: _ :: _ => some revExt.reverse

/-- The scan loop's filter: a regular file whose extension, lowercased,
is a supported one. -/
def keepEntry (e : DirEntry) : Bool :=
  e.isFile &&
    (match extensionOf e.path with
     | some ext => supportedExts.contains (ext.map toLowerChar)
     | none => false)

/-- The `for entry in entries` loop of `main`: push the paths the filter
keeps, in directory order. -/
def scanLoop : List DirEntry → List (List Char)
  | [] => []
  | e :: es => if keepEntry e then e.path :: scanLoop es else scanLoop es

/-- The library scan of `main`: a missing or unreadable directory
contributes no entries (`none` here); the kept paths are sorted. -/
def scan (dir : Option (List DirEntry)) : List (List Char) :=
  sortByLe lexLe (match dir with | none => [] | some es => scanLoop es)

/-- A tag item's value (`lofty::tag::ItemValue`): text, or some other
shape. -/
inductive ItemValue where
  | text (s : List Char)
  | other
deriving DecidableEq

/-- One tag item: whether its key is `ItemKey::Lyrics`, and its value. -/
structure TagItem where
  isLyricsKey : Bool
  value : ItemValue
deriving DecidableEq

/-- The primary tag's data as `load_track` reads it.  `cover` is the
outcome of the picture/picker/image-decode chain: the decoded cover when
every step succeeds, none otherwise. -/
structure TagData where
  title : Option (List Char)
  artist : Option (List Char)
  album : Option (List Char)
  cover : Option (List Char)
  items : List TagItem
deriving DecidableEq

/-- The outcome of `Probe::open(path).and_then(|p| p.read())` together
with `primary_tag()`: the probe/read failed; it succeeded with no
primary tag; or it produced a primary tag. -/
inductive TagRead where
  | err
  | okNoTag
  | okTag (t : TagData)
deriving DecidableEq

/-- The sibling `.lrc` file: absent, present but unreadable, or present
with readable content. -/
inductive SidecarFile where
  | absent
  | unreadable
  | readable (content : List Char)
deriving DecidableEq

/-- Everything external `load_track` consults for one track:
`decodeOk` is `File::open` and `Decoder::new` both succeeding,
`totalDuration` the decoder's duration estimate, `fileName` the result of
`path.file_name()` used as the fallback title. -/
structure LoadEnv where
  decodeOk : Bool
  totalDuration : Option Nat
  tagRead : TagRead
  sidecar : SidecarFile
  fileName : List Char
deriving DecidableEq

/-- The track-metadata fields of `AppState` that `load_track` writes. -/
structure Metadata where
  title : List Char
  artist : List Char
  album : List Char
  duration : Nat
  cover : Option (List Char)
  lyrics : List LyricLine
deriving DecidableEq

/-- The embedded-lyrics loop of `load_track`: the first item whose key is
`Lyrics` and whose value is text is parsed, and the loop breaks; a
`Lyrics` item with a non-text value is passed over. -/
def embeddedLyrics : List TagItem → List LyricLine
  | [] => []
  | item :: rest =>
    if item.isLyricsKey then
      match item.value with
      | .text s => parse_lrc s
      | .other => embeddedLyrics rest
    else embeddedLyrics rest

/-- `AppState::load_track`, restricted to the metadata fields: reset
every field to its default, read the decoder's duration, then the tag
data; the sidecar `.lrc` is consulted (and, failing that, the embedded
lyrics) only inside the branch where the tag read produced a primary
tag, exactly as in the source. -/
def load_track (st : Metadata) (env : LoadEnv) : Metadata :=
  let st := { st with
    title := "Loading...".toList, artist := "-".toList, album := "-".toList,
    cover := none, lyrics := [], duration := 0 }
  let st := if env.decodeOk then { st with duration := env.totalDuration.getD 0 } else st
  match env.tagRead with
  | .err => { st with title := env.fileName }
  | .okNoTag => st
  | .okTag t =>
    let st := { st with
      title := t.title.getD ("Unknown Title".toList),
      artist := t.artist.getD ("Unknown Artist".toList),
      album := t.album.getD ("Unknown Album".toList),
      cover := t.cover }
    match env.sidecar with
    | .readable c => { st with lyrics := parse_lrc c }
    | .unreadable => st
    | .absent => { st with lyrics := embeddedLyrics t.items }

/-- The tie example of the spec: three lines, the last two at 5 s. -/
def demoLyrics : List LyricLine := [⟨0, ['a']⟩, ⟨5000, ['b']⟩, ⟨5000, ['c']⟩]

/-- A metadata state with arbitrary-looking old values, for concrete
counterexamples. -/
def mdef : Metadata := ⟨['o'], ['o'], ['o'], 7, some ['o'], [⟨1, ['o']⟩]⟩

/-- A load where the tag read fails while a readable sidecar exists. -/
def envTagFail : LoadEnv :=
  ⟨false, none, .err, .readable ("[00:05]x".toList), "a.mp3".toList⟩

theorem perm_insertByLe (le : α → α → Bool) (x : α) :
    ∀ l : List α, List.Perm (insertByLe le x l) (x :: l) := by
  intro l
  induction l with
  | nil => simp [insertByLe]
  | cons y ys ih =>
    by_cases hc : le x y
    · simp [insertByLe, hc]
    · simp only [insertByLe, if_neg hc]
      exact (ih.cons y).trans (List.Perm.swap x y ys)

theorem mem_insertByLe {le : α → α → Bool} {x a : α} {l : List α}
    (h : a ∈ insertByLe le x l) : a = x ∨ a ∈ l := by
  have h2 := (perm_insertByLe le x l).mem_iff.mp h
  simpa using h2

theorem pairwise_insertByLe {le : α → α → Bool}
    (htot : ∀ a b, le a b = false → le b a = true)
    (htrans : ∀ a b c, le a b = true → le b c = true → le a c = true)
    (x : α) :
    ∀ l : List α, l.Pairwise (fun a b => le a b = true) →
      (insertByLe le x l).Pairwise (fun a b => le a b = true) := by
  intro l
  induction l with
  | nil =>
    intro _
    simp [insertByLe]
  | cons y ys ih =>
    intro h
    rw [List.pairwise_cons] at h
    obtain ⟨hy, hys⟩ := h
    by_cases hc : le x y = true
    · simp only [insertByLe, if_pos hc]
      rw [List.pairwise_cons]
      refine ⟨?_, List.pairwise_cons.mpr ⟨hy, hys⟩⟩
      intro z hz
      rcases List.mem_cons.mp hz with rfl | hz2
      · exact hc
      · exact htrans x y z hc (hy z hz2)
    · have hc2 : le x y = false := by
        revert hc
        cases le x y <;> simp
      simp only [insertByLe, if_neg hc]
      rw [List.pairwise_cons]
      refine ⟨?_, ih hys⟩
      intro z hz
      rcases mem_insertByLe hz with h | hz2
      · rw [h]
        exact htot x y hc2
      · exact hy z hz2

theorem pairwise_sortByLe {le : α → α → Bool}
    (htot : ∀ a b, le a b = false → le b a = true)
    (htrans : ∀ a b c, le a b = true → le b c = true → le a c = true) :
    ∀ l : List α, (sortByLe le l).Pairwise (fun a b => le a b = true) := by
  intro l
  induction l with
  | nil => simp [sortByLe]
  | cons x xs ih => exact pairwise_insertByLe htot htrans x _ ih

theorem perm_sortByLe (le : α → α → Bool) :
    ∀ l : List α, List.Perm (sortByLe le l) l := by
  intro l
  induction l with
  | nil => exact List.Perm.refl _
  | cons x xs ih =>
    exact (perm_insertByLe le x (sortByLe le xs)).trans (ih.cons x)

theorem filter_insertByLe {le : α → α → Bool} {p : α → Bool} {x : α}
    (hp : ∀ y, le x y = false → p x = true → p y = false) :
    ∀ l : List α, (insertByLe le x l).filter p = (x :: l).filter p := by
  intro l
  induction l with
  | nil => rfl
  | cons y ys ih =>
    by_cases hc : le x y = true
    · simp [insertByLe, hc]
    · have hc2 : le x y = false := by
        revert hc
        cases le x y <;> simp
      simp only [insertByLe, if_neg (by simp [hc2] : ¬le x y = true)]
      by_cases hx : p x = true
      · have hy : p y = false := hp y hc2 hx
        simp [List.filter_cons, hx, hy, ih]
      · have hx2 : p x = false := by
          revert hx
          cases p x <;> simp
        simp [List.filter_cons, hx2, ih]

theorem filter_sortByLe {le : α → α → Bool} {p : α → Bool}
    (hp : ∀ x y, le x y = false → p x = true → p y = false) :
    ∀ l : List α, (sortByLe le l).filter p = l.filter p := by
  intro l
  induction l with
  | nil => rfl
  | cons x xs ih =>
    have h1 := filter_insertByLe (fun y h hx => hp x y h hx) (sortByLe le xs)
    rw [sortByLe, h1]
    simp [List.filter_cons, ih]

theorem lexLe_total : ∀ a b : List Char, lexLe a b = false → lexLe b a = true := by
  intro a
  induction a with
  | nil =>
    intro b h
    simp [lexLe] at h
  | cons x xs ih =>
    intro b h
    cases b with
    | nil => rfl
    | cons y ys =>
      simp only [lexLe] at h ⊢
      by_cases h1 : x.toNat < y.toNat
      · simp [h1] at h
      · by_cases h2 : y.toNat < x.toNat
        · simp [h2]
        · simp only [if_neg h1, if_neg h2] at h
          simp only [if_neg h2, if_neg h1]
          exact ih ys h

theorem lexLe_trans :
    ∀ a b c : List Char, lexLe a b = true → lexLe b c = true → lexLe a c = true := by
  intro a
  induction a with
  | nil =>
    intro b c _ _
    rfl
  | cons x xs ih =>
    intro b c hab hbc
    cases b with
    | nil => simp [lexLe] at hab
    | cons y ys =>
      cases c with
      | nil => simp [lexLe] at hbc
      | cons z zs =>
        simp only [lexLe] at hab hbc ⊢
        rcases Nat.lt_trichotomy x.toNat y.toNat with h1 | h1 | h1
        · rcases Nat.lt_trichotomy y.toNat z.toNat with h2 | h2 | h2
          · simp [Nat.lt_trans h1 h2]
          · simp [h2 ▸ h1]
          · rw [if_neg (Nat.lt_asymm h2), if_pos h2] at hbc
            exact absurd hbc (by simp)
        · rcases Nat.lt_trichotomy y.toNat z.toNat with h2 | h2 | h2
          · simp [h1 ▸ h2]
          · have hxz : x.toNat = z.toNat := h1.trans h2
            rw [if_neg (by omega), if_neg (by omega)] at hab hbc ⊢
            exact ih ys zs hab hbc
          · rw [if_neg (Nat.lt_asymm h2), if_pos h2] at hbc
            exact absurd hbc (by simp)
        · rw [if_neg (Nat.lt_asymm h1), if_pos h1] at hab
          exact absurd hab (by simp)

theorem rposition_spec (p : α → Bool) :
    ∀ l : List α,
      (∀ i : Nat, rposition p l = some i →
        (∃ a, l[i]? = some a ∧ p a = true) ∧
        (∀ (j : Nat) (a : α), l[j]? = some a → p a = true → j ≤ i)) ∧
      (rposition p l = none ↔ ∀ (j : Nat) (a : α), l[j]? = some a → p a = false) := by
  intro l
  induction l with
  | nil =>
    constructor
    · intro i h
      simp [rposition] at h
    · simp [rposition]
  | cons x xs ih =>
    obtain ⟨ihs, ihn⟩ := ih
    constructor
    · intro i h
      simp only [rposition] at h
      cases hr : rposition p xs with
      | some k =>
        rw [hr] at h
        simp only [Option.some.injEq] at h
        subst h
        obtain ⟨⟨a, ha, hpa⟩, hbound⟩ := ihs k hr
        refine ⟨⟨a, by simpa using ha, hpa⟩, ?_⟩
        intro j b hj hpb
        cases j with
        | zero => exact Nat.zero_le _
        | succ m =>
          have hm : xs[m]? = some b := by simpa using hj
          have := hbound m b hm hpb
          omega
      | none =>
        rw [hr] at h
        by_cases hx : p x = true
        · rw [if_pos hx] at h
          simp only [Option.some.injEq] at h
          subst h
          refine ⟨⟨x, by simp, hx⟩, ?_⟩
          intro j b hj hpb
          cases j with
          | zero => exact Nat.le_refl 0
          | succ m =>
            have hm : xs[m]? = some b := by simpa using hj
            have := (ihn.mp hr) m b hm
            rw [this] at hpb
            exact absurd hpb (by simp)
        · rw [if_neg hx] at h
          exact absurd h (by simp)
    · constructor
      · intro h j a hj
        simp only [rposition] at h
        cases hr : rposition p xs with
        | some k =>
          rw [hr] at h
          exact absurd h (by simp)
        | none =>
          rw [hr] at h
          by_cases hx : p x = true
          · rw [if_pos hx] at h
            exact absurd h (by simp)
          · cases j with
            | zero =>
              have hax : x = a := by simpa using hj
              rw [← hax]
              revert hx
              cases p x <;> simp
            | succ m =>
              have hm : xs[m]? = some a := by simpa using hj
              exact (ihn.mp hr) m a hm
      · intro hall
        simp only [rposition]
        have hnone : rposition p xs = none :=
          ihn.mpr (fun j a hj => hall (j + 1) a (by simpa using hj))
        rw [hnone]
        have hx : p x = false := hall 0 x (by simp)
        rw [hx]
        simp

/-- C1: for every lyric sequence and position, `active_line` returns the
greatest index whose timestamp is at most the position (so ties on equal
timestamps resolve to the highest matching index), and returns none
exactly when no line's timestamp has been reached — in particular when
the sequence is empty or the position precedes every timestamp. -/
theorem active_line_correct (lyrics : List LyricLine) (pos : Nat) :
    (∀ i : Nat, active_line lyrics pos = some i →
      (∃ line, lyrics[i]? = some line ∧ line.time ≤ pos) ∧
      (∀ (j : Nat) (line : LyricLine),
        lyrics[j]? = some line → line.time ≤ pos → j ≤ i)) ∧
    (active_line lyrics pos = none ↔
      ∀ (j : Nat) (line : LyricLine), lyrics[j]? = some line → pos < line.time) := by
  obtain ⟨hs, hn⟩ := rposition_spec (fun line => decide (line.time ≤ pos)) lyrics
  constructor
  · intro i hi
    obtain ⟨⟨a, ha, hpa⟩, hbound⟩ := hs i hi
    exact ⟨⟨a, ha, of_decide_eq_true hpa⟩,
      fun j line hj hle => hbound j line hj (decide_eq_true hle)⟩
  · constructor
    · intro h0 j line hj
      have hf := hn.mp h0 j line hj
      have := of_decide_eq_false hf
      omega
    · intro hall
      exact hn.mpr (fun j a hj => decide_eq_false (by have := hall j a hj; omega))

/-- Witness for C1 at the spec's tie example: at position 5 s the active
line of `demoLyrics` is index 2 (the last of the two lines stamped 5 s),
and the bound of `active_line_correct` holds there for index 1. -/
theorem active_line_correct_witness :
    active_line demoLyrics 5000 = some 2 ∧
    demoLyrics[2]? = some ⟨5000, ['c']⟩ ∧ (1 : Nat) ≤ 2 := by
  refine ⟨by decide, by decide, ?_⟩
  exact ((active_line_correct demoLyrics 5000).1 2 (by decide)).2 1 ⟨5000, ['b']⟩
    (by decide) (by decide)

/-- C2 (code behaviour at the claim's inputs): the regex of `parse_lrc`
requires 2–3 fraction digits, so `[00:01.5]x` does not match and the
line is discarded — the source's 1-digit scaling arm is dead code —
while `[00:01.50]x` and `[00:01.500]x` both parse to exactly 1.5 s. -/
theorem parse_lrc_fraction_digits :
    parse_lrc ("[00:01.5]x".toList) = [] ∧
    parse_lrc ("[00:01.50]x".toList) = [⟨1500, ['x']⟩] ∧
    parse_lrc ("[00:01.500]x".toList) = [⟨1500, ['x']⟩] := by
  refine ⟨by decide, by decide, by decide⟩

/-- C3 counterexample: on the empty library the moves are not no-ops —
from the unset cursor both set it to index 0 instead of leaving it
unset. -/
theorem move_empty_not_noop :
    moveUp 0 none ≠ none ∧ moveDown 0 none ≠ none := by
  refine ⟨by decide, by decide⟩

/-- C3 as amended: over a library of length `n` (with `n` a `usize`
value), `moveUp` from a valid index `i` goes to `n - 1` when `i = 0` and
to `i - 1` otherwise, `moveDown` goes to `0` when `i = n - 1` and to
`i + 1` otherwise; but on the empty library the moves are not no-ops:
from the unset cursor both set it to index 0. -/
theorem move_wraparound (n i : Nat) (hn : n ≤ USIZE) (hi : i < n) :
    moveUp n (some i) = some (if i = 0 then n - 1 else i - 1) ∧
    moveDown n (some i) = some (if i = n - 1 then 0 else i + 1) ∧
    moveUp 0 none = some 0 ∧ moveDown 0 none = some 0 := by
  simp only [USIZE] at hn
  have hs : usizeSub1 n = n - 1 := by
    simp only [usizeSub1, USIZE]
    omega
  refine ⟨?_, ?_, rfl, rfl⟩
  · simp only [moveUp, hs]
  · simp only [moveDown, hs]
    by_cases h : i = n - 1
    · have : n - 1 ≤ i := by omega
      simp [h, this]
    · have : ¬(n - 1 ≤ i) := by omega
      simp [h, this]

/-- Witness for C3 at the spec's length-3 example: up from 0 wraps to 2
and down from 2 wraps to 0. -/
theorem move_wraparound_witness :
    moveUp 3 (some 0) = some 2 ∧ moveDown 3 (some 2) = some 0 := by
  have h1 := move_wraparound 3 0 (by decide) (by decide)
  have h2 := move_wraparound 3 2 (by decide) (by decide)
  exact ⟨by simpa using h1.1, by simpa using h2.2.1⟩

/-- C4 (code behaviour at the failing input): on the empty library the
first Up sets the cursor to 0 (it does not stay unset), and the second
Up evaluates `files.len() - 1` at length 0 — the `usize` subtraction
underflows, wrapping to `2 ^ 64 - 1`, an out-of-range index (a debug
build panics right there); Down misbehaves the same way. -/
theorem nav_empty_underflow :
    moveUp 0 none = some 0 ∧
    moveUp 0 (some 0) = some (USIZE - 1) ∧
    moveDown 0 none = some 0 ∧
    moveDown 0 (some 0) = some 1 := by
  refine ⟨by decide, by decide, by decide, by decide⟩

/-- C9: from the unset cursor over a non-empty library, both moves land
on index 0 (the `None => 0` arm of both key handlers); up does not wrap
to the last index. -/
theorem move_from_unset (n : Nat) :
    moveUp (n + 1) none = some 0 ∧ moveDown (n + 1) none = some 0 :=
  ⟨rfl, rfl⟩

/-- C5: for every input text the parse result is sorted ascending by
timestamp (non-strict), and the sort is stable: filtering the result at
any fixed timestamp gives the same list, in the same order, as filtering
the lines in input order (`rawParse`), so lines with equal timestamps
keep their relative input order. -/
theorem parse_lrc_sorted_stable (content : List Char) (t : Nat) :
    (parse_lrc content).Pairwise (fun a b => a.time ≤ b.time) ∧
    (parse_lrc content).filter (fun a => a.time == t) =
      (rawParse content).filter (fun a => a.time == t) := by
  have htot : ∀ a b : LyricLine, leTime a b = false → leTime b a = true := by
    intro a b hab
    simp only [leTime, decide_eq_false_iff_not] at hab
    simp only [leTime, decide_eq_true_eq]
    omega
  have htrans : ∀ a b c : LyricLine,
      leTime a b = true → leTime b c = true → leTime a c = true := by
    intro a b c hab hbc
    simp only [leTime, decide_eq_true_eq] at hab hbc ⊢
    omega
  constructor
  · have h := pairwise_sortByLe htot htrans (rawParse content)
    exact h.imp (fun hab => by
      simpa only [leTime, decide_eq_true_eq] using hab)
  · refine filter_sortByLe ?_ (rawParse content)
    intro x y hxy hx
    simp only [leTime, decide_eq_false_iff_not] at hxy
    simp only [beq_iff_eq] at hx
    simp only [beq_eq_false_iff_ne, ne_eq]
    omega

/-- C6 counterexample: `envTagFail` has a readable sidecar whose content
parses to a non-empty lyric sequence, yet because the tag read fails the
loader leaves the lyrics empty — the sidecar is not consulted. -/
theorem load_track_sidecar_skipped :
    envTagFail.tagRead = .err ∧
    envTagFail.sidecar = .readable ("[00:05]x".toList) ∧
    parse_lrc ("[00:05]x".toList) = [⟨5000, ['x']⟩] ∧
    (load_track mdef envTagFail).lyrics = [] := by
  refine ⟨by decide, by decide, by decide, by decide⟩

/-- C6 as amended: the lyric-source priority — readable sidecar first,
else embedded lyrics, else empty — applies only in the branch where the
tag read succeeded with a primary tag; when the tag read fails or yields
no primary tag, no lyric source is consulted and the lyrics stay empty
(and a sidecar that exists but is unreadable also leaves them empty). -/
theorem load_track_lyric_priority (st : Metadata) (dc : Bool) (td : Option Nat)
    (fn : List Char) (t : TagData) (sc : SidecarFile) (c : List Char) :
    (load_track st ⟨dc, td, .okTag t, .readable c, fn⟩).lyrics = parse_lrc c ∧
    (load_track st ⟨dc, td, .okTag t, .absent, fn⟩).lyrics = embeddedLyrics t.items ∧
    (load_track st ⟨dc, td, .okTag t, .unreadable, fn⟩).lyrics = [] ∧
    (load_track st ⟨dc, td, .err, sc, fn⟩).lyrics = [] ∧
    (load_track st ⟨dc, td, .okNoTag, sc, fn⟩).lyrics = [] := by
  cases st
  refine ⟨?_, ?_, ?_, ?_, ?_⟩ <;> cases dc <;> rfl

/-- C7: `load_track` writes every metadata field from its reset defaults
and the new track's environment alone, never from the previous state —
the result is the same whatever metadata was there before, so no field
can leak from the previously playing track even when every step of the
new load fails; and a fully failing load leaves exactly the defaults
(with the file name as the fallback title). -/
theorem load_track_no_leak (st1 st2 : Metadata) (env : LoadEnv) (fn : List Char) :
    load_track st1 env = load_track st2 env ∧
    load_track st1 ⟨false, none, .err, .absent, fn⟩ =
      ⟨fn, "-".toList, "-".toList, 0, none, []⟩ := by
  cases st1
  cases st2
  exact ⟨rfl, rfl⟩

/-- The scan loop keeps, in order, the paths of exactly the entries the
filter keeps. -/
theorem scanLoop_eq_filter :
    ∀ es : List DirEntry, scanLoop es = (es.filter keepEntry).map DirEntry.path := by
  intro es
  induction es with
  | nil => rfl
  | cons e es2 ih =>
    by_cases h : keepEntry e
    · simp [scanLoop, h, List.filter_cons, ih]
    · have h2 : keepEntry e = false := by
        revert h
        cases keepEntry e <;> simp
      simp [scanLoop, h2, List.filter_cons, ih]

/-- C8: scanning a missing or unreadable directory yields the empty
library; otherwise the scan is a permutation of exactly the entries the
filter keeps (regular files whose lowercased extension is a supported
one), sorted lexicographically. -/
theorem scan_spec (es : List DirEntry) :
    scan none = [] ∧
    (scan (some es)).Pairwise (fun p q => lexLe p q = true) ∧
    List.Perm (scan (some es)) ((es.filter keepEntry).map DirEntry.path) := by
  refine ⟨rfl, ?_, ?_⟩
  · exact pairwise_sortByLe lexLe_total lexLe_trans (scanLoop es)
  · have hp := perm_sortByLe lexLe (scanLoop es)
    rw [← scanLoop_eq_filter es]
    exact hp

/-- C10: a line parses from the leftmost timestamp match wherever it
sits in the line — `findStamp` scans positions left to right — so text
before the first recognizable bracketed timestamp is discarded and only
the text after the bracket, trimmed, is kept. -/
theorem parseLine_stamp_anywhere (l : List Char) (mn sc : Nat)
    (fr : Option (List Char)) (rest : List Char)
    (h : findStamp (trimChars l) = some (mn, sc, fr, rest)) :
    parseLine l = [⟨(mn * 60 + sc) * 1000 + fracToMillis fr, trimChars rest⟩] := by
  have hne : (trimChars l).isEmpty = false := by
    cases he : trimChars l with
    | nil =>
      rw [he] at h
      simp [findStamp] at h
    | cons a as => simp
  simp only [parseLine]
  rw [hne, h]
  rfl

/-- Witness for C10: a line with the text `foo ` before its timestamp
still parses, to 10 s with the prefix discarded and the tail trimmed. -/
theorem parseLine_stamp_anywhere_witness :
    parseLine ("foo [00:10] hello".toList) = [⟨10000, "hello".toList⟩] := by
  have h := parseLine_stamp_anywhere ("foo [00:10] hello".toList) 0 10 none
    (" hello".toList) (by decide)
  exact h.trans (by decide)
